import Mathlib

set_option maxHeartbeats 1600000
set_option maxRecDepth 4000

/-!
Verification of the crossword CSP solver in `generate.py`
(class `CrosswordCreator`).  The solver's state is a domain mapping
(slot to candidate words) and a partial assignment (slot to word).
All functions below are shallow embeddings of the corresponding Python
methods; fuel is used to render the recursive procedures structural,
and theorems show the fuel bounds are always sufficient.
-/

/-- Slots ("variables") are identified abstractly by a natural number.
The Python `Variable` is a (row, column, direction, length) record used
only through equality, its `length` field, and the structural-model
tables; the identifier plus the `varLen` table below capture that. -/
abbrev Var := Nat

/-- A candidate word, as a sequence of characters. -/
abbrev Word := List Char

/-- Modelled from the spec: the Structural Model (the `Crossword` class
of `crossword.py`, which is not among the analysed sources).  Per spec
sections 2, 3 and 6 it exposes the slots, each slot's length, the
pairwise overlap facts, each slot's neighbor set, and the vocabulary. -/
structure Crossword where
  vars : List Var
  varLen : Var → Nat
  overlaps : Var → Var → Option (Nat × Nat)
  neighbors : Var → List Var
  words : List Word

/-- A domain mapping: each slot's current candidate words.
`CrosswordCreator.self.domains`. -/
abbrev Domains := Var → List Word

/-- A partial assignment: a Python dict from variables to words,
as an insertion-ordered association list with unique keys. -/
abbrev Assignment := List (Var × Word)

/-- Well-formedness of the structural model, from spec section 3:
neighbor sets agree with overlap facts, overlaps are symmetric with
mirrored offsets, no slot overlaps itself, offsets lie inside the slot
lengths (spec section 7 lets the core assume this), and neighbors are
slots. -/
def wfCheck (c : Crossword) : Bool :=
  c.vars.all fun x =>
    ((c.neighbors x).all fun y => c.vars.contains y) &&
    ((c.overlaps x x).isNone) &&
    (c.vars.all fun y =>
      ((c.neighbors x).contains y == (c.overlaps x y).isSome) &&
      (match c.overlaps x y with
       | none => true
       | some (i, j) =>
         (c.overlaps y x == some (j, i)) &&
         (decide (i < c.varLen x)) && (decide (j < c.varLen y))))

/-- `CrosswordCreator.__init__`: every slot starts with the full
vocabulary as its domain. -/
def initDomains (c : Crossword) : Domains := fun _ => c.words

/-- Python one-character slice `w[i:i+1]`: a singleton for an in-range
index, the empty string otherwise. -/
def slice1 (w : Word) (i : Nat) : Word := (w.drop i).take 1

/-- The letter comparison `w[i:i+1] == v[j:j+1]` used by `revise`,
`consistent` and `order_domain_values`. -/
def letterMatch (w v : Word) (i j : Nat) : Bool := slice1 w i == slice1 v j

/-- Whether word `w` of slot X has some compatible partner in the word
list `dy` of slot Y, at overlap offsets `(i, j)`. -/
def supp (dy : List Word) (i j : Nat) (w : Word) : Bool :=
  dy.any fun v => letterMatch w v i j

/-- Pointwise update of a domain mapping (mutation of one dict entry). -/
def updateD (d : Domains) (x : Var) (l : List Word) : Domains :=
  fun v => if v = x then l else d v

/-- `CrosswordCreator.enforce_node_consistency`: for every slot, drop
the candidates whose length differs from the slot's length. -/
def enforce_node_consistency (c : Crossword) (d : Domains) : Domains :=
  fun v => if v ∈ c.vars then (d v).filter (fun w => w.length == c.varLen v) else d v

/-- `CrosswordCreator.revise`: if X and Y have no overlap fact, a no-op
returning `false`; otherwise remove from X's domain every word with no
compatible partner in Y's domain, returning whether at least one word
was removed. -/
def revise (c : Crossword) (d : Domains) (x y : Var) : Domains × Bool :=
  match c.overlaps x y with
  | none => (d, false)
  | some (i, j) =>
    (updateD d x ((d x).filter (supp (d y) i j)),
     (d x).any fun w => ! supp (d y) i j w)

/-- The initial worklist built by `ac3` when called with `arcs=None`:
every (slot, neighbor-of-slot) pair, in enumeration order. -/
def pairsOf (c : Crossword) : List Var → List (Var × Var)
  | [] => []
  | v :: rest => ((c.neighbors v).map fun n => (v, n)) ++ pairsOf c rest

def initialArcs (c : Crossword) : List (Var × Var) := pairsOf c c.vars

/-- The `ac3` worklist loop, with explicit fuel.  `arcs.pop()` removes
the last list element; on a changed, non-empty domain of `x` the arcs
`(z, x)` for the other neighbors `z` of `x` are appended. -/
def ac3F (c : Crossword) : Nat → Domains → List (Var × Var) → Option (Domains × Bool)
  | 0, _, _ => none
  | fuel + 1, d, arcs =>
    match arcs.getLast? with
    | none => some (d, true)
    | some (x, y) =>
      let rest := arcs.dropLast
      let r := revise c d x y
      if r.2 then
        if (r.1 x).length = 0 then some (r.1, false)
        else ac3F c fuel r.1
          (rest ++ ((c.neighbors x).filter (fun z => z ≠ y)).map fun z => (z, x))
      else ac3F c fuel d rest

/-- Total over-approximation of the neighbor-list lengths, used for the
`ac3` fuel bound. -/
def degSumL (c : Crossword) : List Var → Nat
  | [] => 0
  | v :: r => (c.neighbors v).length + degSumL c r

def degSum (c : Crossword) : Nat := degSumL c c.vars

/-- Total number of candidate words over the listed slots, used for the
`ac3` fuel bound. -/
def totalSizeL (d : Domains) : List Var → Nat
  | [] => 0
  | v :: r => (d v).length + totalSizeL d r

def totalSize (c : Crossword) (d : Domains) : Nat := totalSizeL d c.vars

/-- `CrosswordCreator.ac3`: run the worklist loop on the given arcs (or
on all arcs when none are given).  The fuel is sufficient for every
well-formed input, as proved below. -/
def ac3 (c : Crossword) (d : Domains) (arcsO : Option (List (Var × Var))) : Domains × Bool :=
  let arcs := arcsO.getD (initialArcs c)
  (ac3F c ((1 + degSum c) * totalSize c d + arcs.length + 1) d arcs).getD (d, true)

/-- `CrosswordCreator.assignment_complete`: every slot has an entry. -/
def assignment_complete (c : Crossword) (a : Assignment) : Bool :=
  c.vars.all fun v => (List.lookup v a).isSome

/-- The loop body of `CrosswordCreator.consistent`: traverse the dict
items, tracking already-seen keys, rejecting duplicate keys, length
mismatches, and letter conflicts with assigned neighbors. -/
def consistentAux (c : Crossword) (a : Assignment) : List (Var × Word) → List Var → Bool
  | [], _ => true
  | (v, w) :: rest, seen =>
    if v ∈ seen then false
    else if ! (w.length == c.varLen v) then false
    else if (c.neighbors v).all (fun nb =>
        match c.overlaps v nb with
        | some (i, j) =>
          match List.lookup nb a with
          | some wn => letterMatch w wn i j
          | none => true
        | none => true)
    then consistentAux c a rest (v :: seen)
    else false

/-- `CrosswordCreator.consistent`. -/
def consistent (c : Crossword) (a : Assignment) : Bool :=
  consistentAux c a a []

/-- The conflict count of `order_domain_values` for one candidate:
over the unassigned neighbors, the number of their candidates that
disagree at the overlap cell. -/
def conflictCount (c : Crossword) (d : Domains) (a : Assignment) (var : Var) (val : Word) : Nat :=
  ((c.neighbors var).map fun nb =>
    if (List.lookup nb a).isSome then 0
    else match c.overlaps var nb with
      | some (i, j) => ((d nb).filter fun nv => ! letterMatch val nv i j).length
      | none => 0).sum

/-- Stable insertion of `x` into a list already sorted ascending by
key: `x` goes after all entries with key at most `key x`. -/
def insertSorted (key : Word → Nat) (x : Word) : List Word → List Word
  | [] => [x]
  | y :: ys => if key x < key y then x :: y :: ys else y :: insertSorted key x ys

def sortByKey (key : Word → Nat) (l : List Word) : List Word :=
  l.foldl (fun acc x => insertSorted key x acc) []

/-- `CrosswordCreator.order_domain_values`: the candidates of `var`,
stably sorted ascending by conflict count. -/
def order_domain_values (c : Crossword) (d : Domains) (var : Var) (a : Assignment) : List Word :=
  sortByKey (conflictCount c d a var) (d var)

/-- First loop of `select_unassigned_variable`: collect the unassigned
slots attaining the minimum remaining-domain size (`none` plays
`math.inf`). -/
def suvPhase1 (d : Domains) (a : Assignment) : List Var → Option Nat → List Var → List Var
  | [], _, acc => acc
  | v :: rest, minO, acc =>
    if (List.lookup v a).isSome then suvPhase1 d a rest minO acc
    else
      let rv := (d v).length
      match minO with
      | none => suvPhase1 d a rest (some rv) [v]
      | some m =>
        if rv = m then suvPhase1 d a rest (some m) (acc ++ [v])
        else if rv < m then suvPhase1 d a rest (some rv) [v]
        else suvPhase1 d a rest (some m) acc

/-- Second loop of `select_unassigned_variable`: keep the first slot
whose neighbor count strictly exceeds the best so far. -/
def suvPhase2 (c : Crossword) : List Var → Var → Nat → Var
  | [], best, _ => best
  | v :: rest, best, bestN =>
    if (c.neighbors v).length > bestN then suvPhase2 c rest v ((c.neighbors v).length)
    else suvPhase2 c rest best bestN

/-- `CrosswordCreator.select_unassigned_variable`: minimum remaining
values, ties broken by maximum degree.  Returns `none` exactly when no
slot is unassigned (where Python would raise an IndexError). -/
def select_unassigned_variable (c : Crossword) (d : Domains) (a : Assignment) : Option Var :=
  match suvPhase1 d a c.vars none [] with
  | [] => none
  | [v] => some v
  | v :: rest => some (suvPhase2 c (v :: rest) v ((c.neighbors v).length))

/-- Python dict insertion `a[var] = w`: overwrite in place if the key
exists, else append. -/
def dictInsert (a : Assignment) (var : Var) (w : Word) : Assignment :=
  if (List.lookup var a).isSome then a.map (fun p => if p.1 = var then (var, w) else p)
  else a ++ [(var, w)]

/-- The value loop of `CrosswordCreator.backtrack`.  The first
component of a successful result is the returned value; the second is
the state of the (shared, mutated) `assignment` dict when the loop
ends: `assignment[var] = value` keeps the entry even when the
recursive call fails, since `del assignment_copy[var]` only touches
the discarded copy. -/
def tryValuesF (c : Crossword)
    (bt : Assignment → Option (Option Assignment × Assignment)) :
    Assignment → Var → List Word → Option (Option Assignment × Assignment)
  | a, _, [] => some (none, a)
  | a, var, v :: rest =>
    let copy := dictInsert a var v
    if consistent c copy then
      match bt copy with
      | none => none
      | some (some r, aAfter) => some (some r, aAfter)
      | some (none, aAfter) => tryValuesF c bt aAfter var rest
    else tryValuesF c bt a var rest

/-- `CrosswordCreator.backtrack`, with explicit fuel (one unit per
recursion level; the fuel bound proved below always suffices). -/
def backtrackF (c : Crossword) (d : Domains) : Nat → Assignment → Option (Option Assignment × Assignment)
  | 0, _ => none
  | fuel + 1, a =>
    if assignment_complete c a then some (some a, a)
    else
      match select_unassigned_variable c d a with
      | none => some (none, a)
      | some var => tryValuesF c (backtrackF c d fuel) a var (order_domain_values c d var a)

/-- `CrosswordCreator.backtrack` at its always-sufficient fuel: first
component the return value, second the final state of the mutated
`assignment` argument. -/
def backtrack (c : Crossword) (d : Domains) (a : Assignment) : Option Assignment × Assignment :=
  (backtrackF c d (c.vars.length + 1) a).getD (none, a)

/-- `CrosswordCreator.solve`: node consistency, then `ac3` (its result
is discarded, as in the source), then backtracking search from the
empty assignment. -/
def solve (c : Crossword) : Option Assignment :=
  let d1 := enforce_node_consistency c (initDomains c)
  let d2 := (ac3 c d1 none).1
  (backtrack c d2 []).1

/-- A complete assignment given as a total function on slots satisfies
the length and overlap constraints (spec section 8): each value has the
slot's length and crossing slots agree on the shared character. -/
def solSatB (c : Crossword) (f : Var → Word) : Bool :=
  c.vars.all fun x =>
    ((f x).length == c.varLen x) &&
    (c.vars.all fun y =>
      match c.overlaps x y with
      | some (i, j) => (f x)[i]? == (f y)[j]?
      | none => true)

def SolSat (c : Crossword) (f : Var → Word) : Prop := solSatB c f = true

/-- Arc (x, y) is already consistent: `revise` would remove nothing. -/
def arcStable (c : Crossword) (d : Domains) (x y : Var) : Prop :=
  (revise c d x y).2 = false

/-- Number of listed slots with no entry in the assignment. -/
def unA (a : Assignment) : List Var → Nat
  | [] => 0
  | v :: r => (if (List.lookup v a).isSome then 0 else 1) + unA a r

/-! ### Concrete instances used as witnesses and counterexamples -/

/-- Four slots in a chain 0-1-2-3, words of length 2, each crossing
sharing one cell. -/
def cw1 : Crossword where
  vars := [0, 1, 2, 3]
  varLen := fun _ => 2
  overlaps := fun x y =>
    if x = 0 ∧ y = 1 then some (0, 0) else if x = 1 ∧ y = 0 then some (0, 0)
    else if x = 1 ∧ y = 2 then some (1, 0) else if x = 2 ∧ y = 1 then some (0, 1)
    else if x = 2 ∧ y = 3 then some (1, 0) else if x = 3 ∧ y = 2 then some (0, 1)
    else none
  neighbors := fun x =>
    if x = 0 then [1] else if x = 1 then [0, 2]
    else if x = 2 then [1, 3] else if x = 3 then [2] else []
  words := []

def dw1 : Domains := fun v =>
  if v = 0 then [['a', 'b']]
  else if v = 1 then [['a', 'c'], ['a', 'd']]
  else if v = 2 then [['c', 'x'], ['d', 'y']]
  else if v = 3 then [['y', 'm'], ['y', 'n']]
  else []

/-- A complete, consistent solution for `cw1` over `dw1`. -/
def sol1 : Assignment :=
  [(0, ['a', 'b']), (1, ['a', 'd']), (2, ['d', 'y']), (3, ['y', 'm'])]

/-- Slot 0 isolated with an empty domain; slots 1 and 2 cross with
clashing letters, so revising empties slot 2's domain. -/
def cwE : Crossword where
  vars := [0, 1, 2]
  varLen := fun _ => 1
  overlaps := fun x y =>
    if x = 1 ∧ y = 2 then some (0, 0) else if x = 2 ∧ y = 1 then some (0, 0) else none
  neighbors := fun x => if x = 1 then [2] else if x = 2 then [1] else []
  words := []

def dwE : Domains := fun v =>
  if v = 0 then [] else if v = 1 then [['a']] else if v = 2 then [['b']] else []

/-- Slot 0 isolated with an empty domain; slot 1 isolated and
satisfiable, so the worklist is empty and no domain is revised. -/
def cwT : Crossword where
  vars := [0, 1]
  varLen := fun _ => 1
  overlaps := fun _ _ => none
  neighbors := fun _ => []
  words := []

def dwT : Domains := fun v => if v = 1 then [['a']] else []

/-- A malformed structural model whose overlap offsets lie beyond the
word lengths, exercising the out-of-range slice behavior. -/
def cwS : Crossword where
  vars := [0, 1]
  varLen := fun _ => 2
  overlaps := fun x y =>
    if x = 0 ∧ y = 1 then some (5, 5) else if x = 1 ∧ y = 0 then some (5, 5) else none
  neighbors := fun x => if x = 0 then [1] else if x = 1 then [0] else []
  words := []

def dwS : Domains := fun v =>
  if v = 0 then [['a', 'b']] else if v = 1 then [['c']] else []

/-- Scenario D of the spec: slot 1 has domain size 1 and no neighbors,
slot 0 has domain size 3 and one neighbor (slot 2, domain size 5). -/
def cwD : Crossword where
  vars := [0, 1, 2]
  varLen := fun _ => 2
  overlaps := fun x y =>
    if x = 0 ∧ y = 2 then some (0, 0) else if x = 2 ∧ y = 0 then some (0, 0) else none
  neighbors := fun x => if x = 0 then [2] else if x = 2 then [0] else []
  words := []

def dwD : Domains := fun v =>
  if v = 0 then [['a', 'a'], ['a', 'b'], ['a', 'c']]
  else if v = 1 then [['z', 'z']]
  else [['q', 'q'], ['q', 'r'], ['q', 's'], ['q', 't'], ['q', 'u']]

/-- A single slot of length 5 whose vocabulary has no word of length
5 (Scenario C of the spec). -/
def cwC : Crossword where
  vars := [0]
  varLen := fun _ => 5
  overlaps := fun _ _ => none
  neighbors := fun _ => []
  words := [['c', 'a', 't']]

/-- Scenario B of the spec: two independent slots of lengths 3 and 4
with vocabulary cat, code. -/
def cwB : Crossword where
  vars := [0, 1]
  varLen := fun v => if v = 0 then 3 else 4
  overlaps := fun _ _ => none
  neighbors := fun _ => []
  words := [['c', 'a', 't'], ['c', 'o', 'd', 'e']]

/-- The solution `solve` finds on `cwB`. -/
def solB : Assignment := [(0, ['c', 'a', 't']), (1, ['c', 'o', 'd', 'e'])]

/-- `sol1` as a total function, for the soundness claim about `cw1`. -/
def fSol1 : Var → Word := fun v =>
  if v = 0 then ['a', 'b'] else if v = 1 then ['a', 'd']
  else if v = 2 then ['d', 'y'] else if v = 3 then ['y', 'm'] else []

/-! ### Basic lemmas -/

theorem slice1_of_le {w : Word} {i : Nat} (h : w.length ≤ i) : slice1 w i = [] := by
  simp [slice1, List.drop_eq_nil_of_le h]

theorem letterMatch_of_both_le {w v : Word} {i j : Nat}
    (hw : w.length ≤ i) (hv : v.length ≤ j) : letterMatch w v i j = true := by
  simp [letterMatch, slice1_of_le hw, slice1_of_le hv]

theorem letterMatch_symm (w v : Word) (i j : Nat) :
    letterMatch v w j i = letterMatch w v i j := by
  simp [letterMatch]
  constructor <;> (intro h; exact h.symm)

/-! ### Claim theorems, part 1 -/

/-- Claim C1 (evidence for the code bug): `backtrack` removes the
tentative entry only from the discarded copy, so on a failed branch
the shared assignment dict keeps the entry.  Concretely, on `cw1` with
domains `dw1`, `backtrack` starting from the empty assignment returns
failure and leaves the assignment mutated to three stale entries, even
though the complete, consistent assignment `sol1` (drawn from the
domains) exists; a backtracker that restored the assignment would have
found it. -/
theorem claim_C1_backtrack_mutates_and_misses :
    (backtrack cw1 dw1 []).1 = none ∧
    (backtrack cw1 dw1 []).2 = [(0, ['a', 'b']), (1, ['a', 'c']), (2, ['c', 'x'])] ∧
    wfCheck cw1 = true ∧
    assignment_complete cw1 sol1 = true ∧
    consistent cw1 sol1 = true ∧
    (∀ p ∈ sol1, p.2 ∈ dw1 p.1) := by
  refine ⟨by decide, by decide, by decide, by decide, by decide, by decide⟩

/-- Claim C2: with no overlap fact `revise` changes nothing and
returns false; with overlap offsets `(i, j)` it keeps in X's domain
exactly the words with a compatible partner in Y's current domain,
changes no other domain, and reports true iff some word was removed. -/
theorem claim_C2_revise_spec (c : Crossword) (d : Domains) (x y : Var) :
    match c.overlaps x y with
    | none => revise c d x y = (d, false)
    | some (i, j) =>
      (revise c d x y).1 x = (d x).filter (supp (d y) i j) ∧
      (∀ z, z ≠ x → (revise c d x y).1 z = d z) ∧
      ((revise c d x y).2 = true ↔ ∃ w ∈ d x, ∀ v ∈ d y, letterMatch w v i j = false) := by
  cases h : c.overlaps x y with
  | none => simp [revise, h]
  | some p =>
    obtain ⟨i, j⟩ := p
    refine ⟨by simp [revise, h, updateD], fun z hz => by simp [revise, h, updateD, hz], ?_⟩
    simp only [revise, h, List.any_eq_true, Bool.not_eq_true']
    constructor
    · rintro ⟨w, hw, hsupp⟩
      refine ⟨w, hw, fun v hv => ?_⟩
      by_contra hne
      have : supp (d y) i j w = true :=
        List.any_eq_true.2 ⟨v, hv, by simpa using hne⟩
      simp [this] at hsupp
    · rintro ⟨w, hw, hall⟩
      refine ⟨w, hw, ?_⟩
      by_contra hne
      have : supp (d y) i j w = true := by simpa using hne
      obtain ⟨v, hv, hm⟩ := List.any_eq_true.1 this
      simp [hall v hv] at hm

/-- Witness for claim C2, at a pair with no overlap and a pair with an
overlap in `cw1`. -/
theorem claim_C2_revise_spec_witness :
    revise cw1 dw1 0 2 = (dw1, false) ∧
    (revise cw1 dw1 1 2).1 1 = (dw1 1).filter (supp (dw1 2) 1 0) := by
  exact ⟨claim_C2_revise_spec cw1 dw1 0 2, (claim_C2_revise_spec cw1 dw1 1 2).1⟩

/-- Claim C9: the letter checks compare one-character slices, so an
out-of-range offset yields the empty string; two words whose offsets
are both out of range compare as matching, and `revise` therefore
keeps such a word rather than rejecting it (totality of the Lean
functions models the absence of runtime errors). -/
theorem claim_C9_slice_semantics :
    (∀ (w : Word) (i : Nat), w.length ≤ i → slice1 w i = []) ∧
    (∀ (w v : Word) (i j : Nat), w.length ≤ i → v.length ≤ j → letterMatch w v i j = true) ∧
    (∀ (c : Crossword) (d : Domains) (x y : Var) (i j : Nat) (w : Word),
      c.overlaps x y = some (i, j) → w ∈ d x → w.length ≤ i →
      (∃ v ∈ d y, v.length ≤ j) → w ∈ (revise c d x y).1 x) := by
  refine ⟨fun w i h => slice1_of_le h,
          fun w v i j hw hv => letterMatch_of_both_le hw hv, ?_⟩
  rintro c d x y i j w hov hw hwi ⟨v, hv, hvj⟩
  have hkeep : supp (d y) i j w = true :=
    List.any_eq_true.2 ⟨v, hv, letterMatch_of_both_le hwi hvj⟩
  simp [revise, hov, updateD, List.mem_filter, hw, hkeep]

/-! ### Lemmas about revise and the ac3 worklist loop -/

theorem revise_fst_sublist (c : Crossword) (d : Domains) (x y : Var) :
    ∀ v, ((revise c d x y).1 v).Sublist (d v) := by
  intro v
  cases h : c.overlaps x y with
  | none => simp [revise, h]
  | some p =>
    obtain ⟨i, j⟩ := p
    by_cases hv : v = x <;> simp [revise, h, updateD, hv, List.filter_sublist]

theorem revise_true_nonempty {c : Crossword} {d : Domains} {x y : Var}
    (h : (revise c d x y).2 = true) : d x ≠ [] := by
  intro hnil
  cases hov : c.overlaps x y with
  | none => simp [revise, hov] at h
  | some p => obtain ⟨i, j⟩ := p; simp [revise, hov, hnil] at h

theorem ac3F_sublist (c : Crossword) :
    ∀ (fuel : Nat) (d : Domains) (arcs : List (Var × Var)) (d2 : Domains) (b : Bool),
    ac3F c fuel d arcs = some (d2, b) → ∀ v, (d2 v).Sublist (d v) := by
  intro fuel
  induction fuel with
  | zero => intro d arcs d2 b h; simp [ac3F] at h
  | succ n ih =>
    intro d arcs d2 b h v
    rw [ac3F] at h
    cases hlast : arcs.getLast? with
    | none =>
      rw [hlast] at h
      simp only [Option.some.injEq, Prod.mk.injEq] at h
      rw [h.1]
    | some xy =>
      obtain ⟨x, y⟩ := xy
      rw [hlast] at h
      simp only at h
      by_cases hch : (revise c d x y).2
      · rw [if_pos hch] at h
        by_cases hemp : ((revise c d x y).1 x).length = 0
        · rw [if_pos hemp] at h
          simp only [Option.some.injEq, Prod.mk.injEq] at h
          rw [← h.1]
          exact revise_fst_sublist c d x y v
        · rw [if_neg hemp] at h
          exact (ih _ _ _ _ h v).trans (revise_fst_sublist c d x y v)
      · rw [if_neg hch] at h
        exact ih _ _ _ _ h v

theorem ac3F_false_empties (c : Crossword) :
    ∀ (fuel : Nat) (d : Domains) (arcs : List (Var × Var)) (d2 : Domains),
    ac3F c fuel d arcs = some (d2, false) → ∃ x, d2 x = [] ∧ d x ≠ [] := by
  intro fuel
  induction fuel with
  | zero => intro d arcs d2 h; simp [ac3F] at h
  | succ n ih =>
    intro d arcs d2 h
    rw [ac3F] at h
    cases hlast : arcs.getLast? with
    | none =>
      rw [hlast] at h
      simp only [Option.some.injEq, Prod.mk.injEq] at h
      exact absurd h.2 (by simp)
    | some xy =>
      obtain ⟨x, y⟩ := xy
      rw [hlast] at h
      simp only at h
      by_cases hch : (revise c d x y).2
      · rw [if_pos hch] at h
        by_cases hemp : ((revise c d x y).1 x).length = 0
        · rw [if_pos hemp] at h
          simp only [Option.some.injEq, Prod.mk.injEq] at h
          refine ⟨x, ?_, revise_true_nonempty hch⟩
          rw [← h.1]
          exact List.length_eq_zero.1 hemp
        · rw [if_neg hemp] at h
          obtain ⟨x0, hx0, hne⟩ := ih _ _ _ h
          refine ⟨x0, hx0, fun hnil => ?_⟩
          exact hne (List.sublist_nil.1 (hnil ▸ revise_fst_sublist c d x y x0))
      · rw [if_neg hch] at h
        exact ih _ _ _ h

theorem ac3_eq (c : Crossword) (d : Domains) (arcsO : Option (List (Var × Var))) :
    ac3 c d arcsO =
      (ac3F c ((1 + degSum c) * totalSize c d + (arcsO.getD (initialArcs c)).length + 1)
        d (arcsO.getD (initialArcs c))).getD (d, true) := rfl

theorem ac3_false_empties (c : Crossword) (d : Domains)
    (arcsO : Option (List (Var × Var))) (d2 : Domains)
    (h : ac3 c d arcsO = (d2, false)) : ∃ x, d2 x = [] ∧ d x ≠ [] := by
  rw [ac3_eq] at h
  cases hrun : ac3F c ((1 + degSum c) * totalSize c d + (arcsO.getD (initialArcs c)).length + 1)
      d (arcsO.getD (initialArcs c)) with
  | none =>
    rw [hrun, Option.getD_none] at h
    exact absurd (congrArg Prod.snd h) (by simp)
  | some val =>
    rw [hrun, Option.getD_some] at h
    exact ac3F_false_empties c _ d _ d2 (h ▸ hrun)

theorem ac3_sublist (c : Crossword) (d : Domains) (arcsO : Option (List (Var × Var))) :
    ∀ v, ((ac3 c d arcsO).1 v).Sublist (d v) := by
  intro v
  rw [ac3_eq]
  cases hrun : ac3F c ((1 + degSum c) * totalSize c d + (arcsO.getD (initialArcs c)).length + 1)
      d (arcsO.getD (initialArcs c)) with
  | none => simp
  | some val =>
    rw [Option.getD_some]
    exact ac3F_sublist c _ d _ val.1 val.2 (by rw [hrun]) v

/-! ### Claim theorems, part 2 -/

/-- Claim C10, counterexample to the second half as universally
stated: in `cwE` slot 0 has an empty domain, no neighbors, and no
processed arc with it as first component, yet `ac3` returns false
(because revising the clashing arc between slots 1 and 2 empties slot
2's domain). -/
theorem claim_C10_counterexample :
    dwE 0 = [] ∧ (∀ p ∈ initialArcs cwE, p.1 ≠ 0) ∧
    (∀ x ∈ cwE.vars, 0 ∉ cwE.neighbors x) ∧
    wfCheck cwE = true ∧ (ac3 cwE dwE none).2 = false := by
  refine ⟨by decide, by decide, by decide, by decide, by decide⟩

/-- Claim C10 as amended: `ac3` returns false only when a revise call
during the run empties some slot's domain (the final state then has a
slot that is empty but was nonempty on entry); a pre-existing empty
domain on a slot that no processed arc has as first component is not
itself detected, so `ac3` CAN return true with such an empty domain
present (witnessed by `cwT`, where the empty slot has no neighbors and
the worklist is empty), though it may still return false when a revise
elsewhere empties another slot. -/
theorem claim_C10_ac3_false_only_on_emptied :
    (∀ (c : Crossword) (d : Domains) (arcsO : Option (List (Var × Var))) (d2 : Domains),
      ac3 c d arcsO = (d2, false) → ∃ x, d2 x = [] ∧ d x ≠ []) ∧
    (dwT 0 = [] ∧ (∀ p ∈ initialArcs cwT, p.1 ≠ 0) ∧ (ac3 cwT dwT none).2 = true) := by
  exact ⟨ac3_false_empties, by decide, by decide, by decide⟩

/-- Witness for the amended claim C10, at the concrete failing state
`cwE`: the run that returned false indeed emptied a slot. -/
theorem claim_C10_ac3_false_only_on_emptied_witness :
    ∃ x, (ac3 cwE dwE none).1 x = [] ∧ dwE x ≠ [] := by
  have h2 : (ac3 cwE dwE none).2 = false := by decide
  exact claim_C10_ac3_false_only_on_emptied.1 cwE dwE none (ac3 cwE dwE none).1 (by rw [← h2])

/-- Witness for claim C9, at concrete out-of-range inputs: the slice is
empty, two out-of-range words match, and `revise` on the malformed
model `cwS` keeps the word whose offsets are out of range. -/
theorem claim_C9_slice_semantics_witness :
    slice1 ['a'] 3 = [] ∧ letterMatch ['a'] ['b', 'c'] 3 5 = true ∧
    ['a', 'b'] ∈ (revise cwS dwS 0 1).1 0 :=
  ⟨claim_C9_slice_semantics.1 ['a'] 3 (by decide),
   claim_C9_slice_semantics.2.1 ['a'] ['b', 'c'] 3 5 (by decide) (by decide),
   claim_C9_slice_semantics.2.2 cwS dwS 0 1 5 5 ['a', 'b'] (by decide) (by decide)
     (by decide) ⟨['c'], by decide, by decide⟩⟩

/-! ### Lemmas about variable selection -/

theorem suvPhase1_some_spec (d : Domains) (a : Assignment) :
    ∀ (l : List Var) (m : Nat) (acc : List Var),
    acc ≠ [] →
    (∀ v ∈ acc, List.lookup v a = none ∧ (d v).length = m) →
    suvPhase1 d a l (some m) acc ≠ [] ∧
    (∀ v ∈ suvPhase1 d a l (some m) acc, List.lookup v a = none ∧ (v ∈ acc ∨ v ∈ l)) ∧
    ∃ mr, mr ≤ m ∧
      (∀ v ∈ suvPhase1 d a l (some m) acc, (d v).length = mr) ∧
      (∀ u ∈ l, List.lookup u a = none → mr ≤ (d u).length) ∧
      (∀ u ∈ l, List.lookup u a = none → (d u).length = mr →
        u ∈ suvPhase1 d a l (some m) acc) ∧
      (mr = m → ∀ u ∈ acc, u ∈ suvPhase1 d a l (some m) acc) := by
  intro l
  induction l with
  | nil =>
    intro m acc hne hacc
    exact ⟨hne, fun v hv => ⟨(hacc v hv).1, Or.inl hv⟩, m, le_refl m,
      fun v hv => (hacc v hv).2, by simp, by simp, fun _ u hu => hu⟩
  | cons v rest ih =>
    intro m acc hne hacc
    cases hl : List.lookup v a with
    | some w =>
      have hred : suvPhase1 d a (v :: rest) (some m) acc = suvPhase1 d a rest (some m) acc := by
        simp [suvPhase1, hl]
      rw [hred]
      obtain ⟨h1, h2, mr, hle, hsz, hmin, hcomp, haccr⟩ := ih m acc hne hacc
      refine ⟨h1, fun u hu => ⟨(h2 u hu).1, ?_⟩, mr, hle, hsz, ?_, ?_, haccr⟩
      · rcases (h2 u hu).2 with h | h
        · exact Or.inl h
        · exact Or.inr (List.mem_cons_of_mem _ h)
      · intro u hu hun
        rcases List.mem_cons.1 hu with rfl | hu'
        · rw [hl] at hun; cases hun
        · exact hmin u hu' hun
      · intro u hu hun hsz'
        rcases List.mem_cons.1 hu with rfl | hu'
        · rw [hl] at hun; cases hun
        · exact hcomp u hu' hun hsz'
    | none =>
      rcases lt_trichotomy ((d v).length) m with hlt | heq | hgt
      · have hred : suvPhase1 d a (v :: rest) (some m) acc =
            suvPhase1 d a rest (some ((d v).length)) [v] := by
          simp [suvPhase1, hl, Nat.ne_of_lt hlt, hlt]
        rw [hred]
        obtain ⟨h1, h2, mr, hle, hsz, hmin, hcomp, haccr⟩ :=
          ih ((d v).length) [v] (by simp) (by
            intro u hu
            simp only [List.mem_singleton] at hu
            exact ⟨hu ▸ hl, by rw [hu]⟩)
        refine ⟨h1, fun u hu => ⟨(h2 u hu).1, ?_⟩, mr, le_of_lt (lt_of_le_of_lt hle hlt),
          hsz, ?_, ?_, ?_⟩
        · rcases (h2 u hu).2 with h | h
          · simp at h; exact Or.inr (h ▸ List.mem_cons_self v rest)
          · exact Or.inr (List.mem_cons_of_mem _ h)
        · intro u hu hun
          rcases List.mem_cons.1 hu with rfl | hu'
          · exact hle
          · exact hmin u hu' hun
        · intro u hu hun hsz'
          rcases List.mem_cons.1 hu with rfl | hu'
          · exact haccr (by rw [← hsz']) u (by simp)
          · exact hcomp u hu' hun hsz'
        · intro hmm
          omega
      · have hred : suvPhase1 d a (v :: rest) (some m) acc =
            suvPhase1 d a rest (some m) (acc ++ [v]) := by
          simp [suvPhase1, hl, heq]
        rw [hred]
        obtain ⟨h1, h2, mr, hle, hsz, hmin, hcomp, haccr⟩ :=
          ih m (acc ++ [v]) (by simp) (by
            intro u hu
            rcases List.mem_append.1 hu with h | h
            · exact hacc u h
            · simp at h; exact ⟨h ▸ hl, h ▸ heq⟩)
        refine ⟨h1, fun u hu => ⟨(h2 u hu).1, ?_⟩, mr, hle, hsz, ?_, ?_, ?_⟩
        · rcases (h2 u hu).2 with h | h
          · rcases List.mem_append.1 h with h' | h'
            · exact Or.inl h'
            · simp at h'; exact Or.inr (h' ▸ List.mem_cons_self v rest)
          · exact Or.inr (List.mem_cons_of_mem _ h)
        · intro u hu hun
          rcases List.mem_cons.1 hu with rfl | hu'
          · exact heq ▸ hle
          · exact hmin u hu' hun
        · intro u hu hun hsz'
          rcases List.mem_cons.1 hu with rfl | hu'
          · exact haccr (by rw [← hsz', heq]) u (by simp)
          · exact hcomp u hu' hun hsz'
        · intro hmm u hu
          exact haccr hmm u (List.mem_append.2 (Or.inl hu))
      · have hred : suvPhase1 d a (v :: rest) (some m) acc =
            suvPhase1 d a rest (some m) acc := by
          simp [suvPhase1, hl, Nat.ne_of_gt hgt, Nat.not_lt.2 (le_of_lt hgt)]
        rw [hred]
        obtain ⟨h1, h2, mr, hle, hsz, hmin, hcomp, haccr⟩ := ih m acc hne hacc
        refine ⟨h1, fun u hu => ⟨(h2 u hu).1, ?_⟩, mr, hle, hsz, ?_, ?_, haccr⟩
        · rcases (h2 u hu).2 with h | h
          · exact Or.inl h
          · exact Or.inr (List.mem_cons_of_mem _ h)
        · intro u hu hun
          rcases List.mem_cons.1 hu with rfl | hu'
          · exact le_of_lt (lt_of_le_of_lt hle hgt)
          · exact hmin u hu' hun
        · intro u hu hun hsz'
          rcases List.mem_cons.1 hu with rfl | hu'
          · exact absurd (hsz' ▸ lt_of_le_of_lt hle hgt) (lt_irrefl _)
          · exact hcomp u hu' hun hsz'

theorem suvPhase1_entry_spec (d : Domains) (a : Assignment) :
    ∀ (l : List Var), (∃ v ∈ l, List.lookup v a = none) →
    suvPhase1 d a l none [] ≠ [] ∧
    (∀ v ∈ suvPhase1 d a l none [], List.lookup v a = none ∧ v ∈ l) ∧
    ∃ mr,
      (∀ v ∈ suvPhase1 d a l none [], (d v).length = mr) ∧
      (∀ u ∈ l, List.lookup u a = none → mr ≤ (d u).length) ∧
      (∀ u ∈ l, List.lookup u a = none → (d u).length = mr →
        u ∈ suvPhase1 d a l none []) := by
  intro l
  induction l with
  | nil => rintro ⟨v, hv, _⟩; cases hv
  | cons v rest ih =>
    intro hex
    cases hl : List.lookup v a with
    | some w =>
      have hred : suvPhase1 d a (v :: rest) none [] = suvPhase1 d a rest none [] := by
        simp [suvPhase1, hl]
      rw [hred]
      obtain ⟨u, hu, hun⟩ := hex
      rcases List.mem_cons.1 hu with rfl | hu'
      · rw [hl] at hun; cases hun
      obtain ⟨h1, h2, mr, hsz, hmin, hcomp⟩ := ih ⟨u, hu', hun⟩
      refine ⟨h1, fun z hz => ⟨(h2 z hz).1, List.mem_cons_of_mem _ (h2 z hz).2⟩,
        mr, hsz, ?_, ?_⟩
      · intro z hz hzn
        rcases List.mem_cons.1 hz with rfl | hz'
        · rw [hl] at hzn; cases hzn
        · exact hmin z hz' hzn
      · intro z hz hzn hzs
        rcases List.mem_cons.1 hz with rfl | hz'
        · rw [hl] at hzn; cases hzn
        · exact hcomp z hz' hzn hzs
    | none =>
      have hred : suvPhase1 d a (v :: rest) none [] =
          suvPhase1 d a rest (some ((d v).length)) [v] := by
        simp [suvPhase1, hl]
      rw [hred]
      obtain ⟨h1, h2, mr, hle, hsz, hmin, hcomp, haccr⟩ :=
        suvPhase1_some_spec d a rest ((d v).length) [v] (by simp) (by
          intro u hu
          simp only [List.mem_singleton] at hu
          exact ⟨hu ▸ hl, by rw [hu]⟩)
      refine ⟨h1, fun z hz => ⟨(h2 z hz).1, ?_⟩, mr, hsz, ?_, ?_⟩
      · rcases (h2 z hz).2 with h | h
        · simp at h; exact h ▸ List.mem_cons_self v rest
        · exact List.mem_cons_of_mem _ h
      · intro z hz hzn
        rcases List.mem_cons.1 hz with rfl | hz'
        · exact hle
        · exact hmin z hz' hzn
      · intro z hz hzn hzs
        rcases List.mem_cons.1 hz with rfl | hz'
        · exact haccr (by rw [← hzs]) z (by simp)
        · exact hcomp z hz' hzn hzs

theorem suvPhase2_spec (c : Crossword) :
    ∀ (l : List Var) (best : Var),
    (suvPhase2 c l best ((c.neighbors best).length) = best ∨
      suvPhase2 c l best ((c.neighbors best).length) ∈ l) ∧
    (c.neighbors best).length ≤
      (c.neighbors (suvPhase2 c l best ((c.neighbors best).length))).length ∧
    (∀ v ∈ l, (c.neighbors v).length ≤
      (c.neighbors (suvPhase2 c l best ((c.neighbors best).length))).length) := by
  intro l
  induction l with
  | nil => intro best; exact ⟨Or.inl rfl, le_refl _, by simp⟩
  | cons v rest ih =>
    intro best
    by_cases hgt : (c.neighbors v).length > (c.neighbors best).length
    · have hred : suvPhase2 c (v :: rest) best ((c.neighbors best).length) =
          suvPhase2 c rest v ((c.neighbors v).length) := by
        simp [suvPhase2, hgt]
      rw [hred]
      obtain ⟨h1, h2, h3⟩ := ih v
      refine ⟨?_, le_trans (le_of_lt hgt) h2, ?_⟩
      · rcases h1 with h | h
        · exact Or.inr (by rw [h]; exact List.mem_cons_self v rest)
        · exact Or.inr (List.mem_cons_of_mem _ h)
      · intro u hu
        rcases List.mem_cons.1 hu with rfl | hu'
        · exact h2
        · exact h3 u hu'
    · have hred : suvPhase2 c (v :: rest) best ((c.neighbors best).length) =
          suvPhase2 c rest best ((c.neighbors best).length) := by
        simp [suvPhase2, hgt]
      rw [hred]
      obtain ⟨h1, h2, h3⟩ := ih best
      refine ⟨?_, h2, ?_⟩
      · rcases h1 with h | h
        · exact Or.inl h
        · exact Or.inr (List.mem_cons_of_mem _ h)
      · intro u hu
        rcases List.mem_cons.1 hu with rfl | hu'
        · exact le_trans (Nat.not_lt.1 hgt) h2
        · exact h3 u hu'

/-- Full characterization of `select_unassigned_variable` on a state
with at least one unassigned slot: the result is an unassigned slot of
minimal remaining-domain size whose neighbor count is maximal among
the unassigned slots attaining that size. -/
theorem select_spec (c : Crossword) (d : Domains) (a : Assignment)
    (h : ∃ v ∈ c.vars, List.lookup v a = none) :
    ∃ r, select_unassigned_variable c d a = some r ∧ r ∈ c.vars ∧
      List.lookup r a = none ∧
      (∀ u ∈ c.vars, List.lookup u a = none → (d r).length ≤ (d u).length) ∧
      (∀ u ∈ c.vars, List.lookup u a = none → (d u).length = (d r).length →
        (c.neighbors u).length ≤ (c.neighbors r).length) := by
  obtain ⟨h1, h2, mr, hsz, hmin, hcomp⟩ := suvPhase1_entry_spec d a c.vars h
  cases hmrv : suvPhase1 d a c.vars none [] with
  | nil => exact absurd hmrv h1
  | cons v tail =>
    rw [hmrv] at h2 hsz hcomp
    cases tail with
    | nil =>
      refine ⟨v, ?_, (h2 v (by simp)).2, (h2 v (by simp)).1, ?_, ?_⟩
      · simp [select_unassigned_variable, hmrv]
      · intro u hu hun
        rw [hsz v (by simp)]
        exact hmin u hu hun
      · intro u hu hun husz
        have : u ∈ [v] := hcomp u hu hun (by rw [husz, hsz v (by simp)])
        simp at this
        rw [this]
    | cons v2 tail2 =>
      obtain ⟨p1, p2, p3⟩ := suvPhase2_spec c (v :: v2 :: tail2) v
      set r := suvPhase2 c (v :: v2 :: tail2) v ((c.neighbors v).length) with hr
      have hrmem : r ∈ v :: v2 :: tail2 := by
        rcases p1 with h | h
        · exact h ▸ List.mem_cons_self v _
        · exact h
      refine ⟨r, ?_, (h2 r hrmem).2, (h2 r hrmem).1, ?_, ?_⟩
      · simp [select_unassigned_variable, hmrv]
      · intro u hu hun
        rw [hsz r hrmem]
        exact hmin u hu hun
      · intro u hu hun husz
        exact p3 u (hcomp u hu hun (by rw [husz, hsz r hrmem]))

theorem backtrack_eq (c : Crossword) (d : Domains) (a : Assignment) :
    backtrack c d a = (backtrackF c d (c.vars.length + 1) a).getD (none, a) := rfl

theorem solve_eq (c : Crossword) :
    solve c =
      (backtrack c ((ac3 c (enforce_node_consistency c (initDomains c)) none).1) []).1 := rfl

/-! ### Claim theorems, part 3 -/

/-- Claim C7: on any state with an unassigned slot,
`select_unassigned_variable` returns an unassigned slot of minimal
remaining-domain size, and among the unassigned slots attaining that
size one of maximal neighbor count; in particular, on `cwD` with
unassigned slots of domain sizes 3 (one neighbor) and 1 (no
neighbors), it selects the size-1 slot despite its lower degree. -/
theorem claim_C7_select_unassigned_variable :
    (∀ (c : Crossword) (d : Domains) (a : Assignment),
      (∃ v ∈ c.vars, List.lookup v a = none) →
      ∃ r, select_unassigned_variable c d a = some r ∧ r ∈ c.vars ∧
        List.lookup r a = none ∧
        (∀ u ∈ c.vars, List.lookup u a = none → (d r).length ≤ (d u).length) ∧
        (∀ u ∈ c.vars, List.lookup u a = none → (d u).length = (d r).length →
          (c.neighbors u).length ≤ (c.neighbors r).length)) ∧
    ((dwD 0).length = 3 ∧ (dwD 1).length = 1 ∧
      (cwD.neighbors 1).length < (cwD.neighbors 0).length ∧
      select_unassigned_variable cwD dwD [] = some 1) :=
  ⟨select_spec, by decide, by decide, by decide, by decide⟩

/-- Witness for claim C7: the general half applied at `cwD`. -/
theorem claim_C7_select_unassigned_variable_witness :
    (select_unassigned_variable cwD dwD []).isSome := by
  obtain ⟨r, hr, -, -, -, -⟩ :=
    claim_C7_select_unassigned_variable.1 cwD dwD [] ⟨1, by decide, rfl⟩
  rw [hr]; rfl

/-- Claim C6: if some slot has no vocabulary word of its length,
`enforce_node_consistency` empties that slot's domain, and `solve`
returns failure: the empty-domain slot (or one with an even smaller
domain, which must then also be empty) is selected first by the
minimum-remaining-values rule, its candidate list is empty, and the
top-level backtrack fails — independently of whether AC-3 revised the
slot (its boolean result is discarded by `solve`). -/
theorem claim_C6_empty_domain_fails (c : Crossword) (S : Var)
    (hS : S ∈ c.vars) (hlen : ∀ w ∈ c.words, w.length ≠ c.varLen S) :
    enforce_node_consistency c (initDomains c) S = [] ∧ solve c = none := by
  have henf : enforce_node_consistency c (initDomains c) S = [] := by
    simp only [enforce_node_consistency, initDomains, if_pos hS]
    exact List.filter_eq_nil_iff.2 (fun w hw => by simpa using hlen w hw)
  refine ⟨henf, ?_⟩
  set d2 := (ac3 c (enforce_node_consistency c (initDomains c)) none).1 with hd2
  have hSd2 : d2 S = [] := by
    have h := ac3_sublist c (enforce_node_consistency c (initDomains c)) none S
    rw [henf] at h
    exact List.sublist_nil.1 h
  have hcompl : assignment_complete c [] = false := by
    rw [Bool.eq_false_iff]
    intro hall
    rw [assignment_complete, List.all_eq_true] at hall
    have h := hall S hS
    simp [List.lookup] at h
  obtain ⟨r, hr, hrvars, hrun, hrmin, -⟩ := select_spec c d2 [] ⟨S, hS, rfl⟩
  have hrd2 : d2 r = [] := by
    have h := hrmin S hS rfl
    rw [hSd2] at h
    exact List.length_eq_zero.1 (Nat.le_zero.1 h)
  have hbt : backtrackF c d2 (c.vars.length + 1) [] = some (none, []) := by
    rw [backtrackF, hcompl]
    simp only [Bool.false_eq_true, if_false]
    rw [hr]
    show tryValuesF c (backtrackF c d2 c.vars.length) [] r (order_domain_values c d2 r []) =
      some (none, [])
    have hord : order_domain_values c d2 r [] = [] := by
      rw [order_domain_values, hrd2]; rfl
    rw [hord]
    rfl
  rw [solve_eq, backtrack_eq, ← hd2, hbt]
  rfl

/-- Witness for claim C6, on the single-slot crossword `cwC` with no
word of the slot's length. -/
theorem claim_C6_empty_domain_fails_witness :
    enforce_node_consistency cwC (initDomains cwC) 0 = [] ∧ solve cwC = none :=
  claim_C6_empty_domain_fails cwC 0 (by decide) (by decide)

/-! ### Lemmas about assignments as dicts -/

theorem lookup_cons (k a : Var) (b : Word) (es : Assignment) :
    List.lookup k ((a, b) :: es) = if k = a then some b else List.lookup k es := by
  rw [List.lookup]
  cases hba : k == a
  · rw [if_neg (by simpa using hba)]
  · rw [if_pos (by simpa using hba)]

theorem lookup_append_case (var : Var) (w : Word) :
    ∀ (a : Assignment), List.lookup var a = none → ∀ v,
    List.lookup v (a ++ [(var, w)]) = if v = var then some w else List.lookup v a := by
  intro a
  induction a with
  | nil =>
    intro _ v
    simp only [List.nil_append, lookup_cons]
  | cons p rest ih =>
    intro hnone v
    obtain ⟨k, b⟩ := p
    rw [List.cons_append, lookup_cons, lookup_cons] at *
    have hvark : var ≠ k := by
      intro h
      rw [if_pos h] at hnone
      cases hnone
    rw [if_neg hvark] at hnone
    by_cases hvv : v = var
    · subst hvv
      rw [if_pos rfl, if_neg hvark, ih hnone v, if_pos rfl]
    · rw [if_neg hvv]
      by_cases hvk : v = k
      · rw [if_pos hvk, if_pos hvk]
      · rw [if_neg hvk, if_neg hvk, ih hnone v, if_neg hvv]

theorem lookup_map_ne (var : Var) (w : Word) :
    ∀ (a : Assignment) (v : Var), v ≠ var →
    List.lookup v (a.map fun p => if p.1 = var then (var, w) else p) = List.lookup v a := by
  intro a
  induction a with
  | nil => intro v _; rfl
  | cons p rest ih =>
    intro v hvv
    obtain ⟨k, b⟩ := p
    rw [List.map_cons]
    by_cases hkv : k = var
    · have hf : (if ((k, b) : Var × Word).1 = var then (var, w) else (k, b)) = (var, w) := by
        simp [hkv]
      rw [hf, lookup_cons, lookup_cons, if_neg hvv, if_neg (fun h => hvv (h.trans hkv))]
      exact ih v hvv
    · have hf : (if ((k, b) : Var × Word).1 = var then (var, w) else (k, b)) = (k, b) := by
        simp [hkv]
      rw [hf, lookup_cons, lookup_cons]
      by_cases hvk : v = k
      · rw [if_pos hvk, if_pos hvk]
      · rw [if_neg hvk, if_neg hvk]
        exact ih v hvv

theorem lookup_map_self (var : Var) (w : Word) :
    ∀ (a : Assignment), (List.lookup var a).isSome →
    List.lookup var (a.map fun p => if p.1 = var then (var, w) else p) = some w := by
  intro a
  induction a with
  | nil => intro h; simp [List.lookup] at h
  | cons p rest ih =>
    intro hs
    obtain ⟨k, b⟩ := p
    rw [List.map_cons]
    by_cases hkv : k = var
    · have hf : (if ((k, b) : Var × Word).1 = var then (var, w) else (k, b)) = (var, w) := by
        simp [hkv]
      rw [hf, lookup_cons, if_pos rfl]
    · have hf : (if ((k, b) : Var × Word).1 = var then (var, w) else (k, b)) = (k, b) := by
        simp [hkv]
      rw [hf, lookup_cons, if_neg (fun h => hkv h.symm)]
      rw [lookup_cons, if_neg (fun h => hkv h.symm)] at hs
      exact ih hs

theorem lookup_dictInsert (a : Assignment) (var : Var) (w : Word) (v : Var) :
    List.lookup v (dictInsert a var w) = if v = var then some w else List.lookup v a := by
  unfold dictInsert
  cases hs : (List.lookup var a).isSome
  · rw [if_neg (by simp [hs])]
    exact lookup_append_case var w a (by simpa using hs) v
  · rw [if_pos (by simp [hs])]
    by_cases hvv : v = var
    · subst hvv
      rw [if_pos rfl]
      exact lookup_map_self v w a hs
    · rw [if_neg hvv]
      exact lookup_map_ne var w a v hvv

theorem lookup_dictInsert_mono {a : Assignment} {v : Var} (var : Var) (w : Word)
    (h : (List.lookup v a).isSome) : (List.lookup v (dictInsert a var w)).isSome := by
  rw [lookup_dictInsert]
  by_cases hvv : v = var
  · rw [if_pos hvv]; rfl
  · rw [if_neg hvv]; exact h

theorem unA_mono {a b : Assignment}
    (h : ∀ v, (List.lookup v a).isSome → (List.lookup v b).isSome) :
    ∀ l, unA b l ≤ unA a l := by
  intro l
  induction l with
  | nil => exact le_refl 0
  | cons v r ih =>
    simp only [unA]
    have h1 : (if (List.lookup v b).isSome then 0 else 1) ≤
        (if (List.lookup v a).isSome then 0 else 1) := by
      cases hb : (List.lookup v b).isSome
      · cases ha : (List.lookup v a).isSome
        · simp
        · exact absurd (h v ha) (by simp [hb])
      · simp
    exact Nat.add_le_add h1 ih

theorem unA_dictInsert_le (a : Assignment) (var : Var) (w : Word) (l : List Var) :
    unA (dictInsert a var w) l ≤ unA a l :=
  unA_mono (fun _ hv => lookup_dictInsert_mono var w hv) l

theorem unA_dictInsert_lt (a : Assignment) (var : Var) (w : Word) :
    ∀ l, var ∈ l → List.lookup var a = none →
    unA (dictInsert a var w) l < unA a l := by
  intro l
  induction l with
  | nil => intro h; cases h
  | cons v r ih =>
    intro hm hun
    simp only [unA]
    rcases List.mem_cons.1 hm with heq | hm'
    · subst heq
      have hb : (List.lookup var (dictInsert a var w)).isSome = true := by
        rw [lookup_dictInsert, if_pos rfl]; rfl
      have ha : (List.lookup var a).isSome = false := by rw [hun]; rfl
      rw [hb, ha]
      have hle := unA_dictInsert_le a var w r
      have e1 : (if (true : Bool) = true then 0 else 1) = 0 := rfl
      have e2 : (if (false : Bool) = true then 0 else 1) = 1 := rfl
      rw [e1, e2]
      omega
    · have hle : (if (List.lookup v (dictInsert a var w)).isSome then 0 else 1) ≤
          (if (List.lookup v a).isSome then 0 else 1) := by
        cases hb : (List.lookup v (dictInsert a var w)).isSome
        · cases ha : (List.lookup v a).isSome
          · simp
          · exact absurd (lookup_dictInsert_mono var w ha) (by simp [hb])
        · simp
      have := ih hm' hun
      omega

theorem unA_le_length (a : Assignment) : ∀ l : List Var, unA a l ≤ l.length := by
  intro l
  induction l with
  | nil => exact le_refl 0
  | cons v r ih =>
    simp only [unA, List.length_cons]
    cases (List.lookup v a).isSome <;> simp <;> omega

/-! ### Termination of the backtracking search -/

theorem tryValuesF_keys (c : Crossword)
    (bt : Assignment → Option (Option Assignment × Assignment))
    (hbt : ∀ a res aa, bt a = some (res, aa) →
      ∀ v, (List.lookup v a).isSome → (List.lookup v aa).isSome) :
    ∀ (vals : List Word) (a : Assignment) (var : Var) (res : Option Assignment)
      (aa : Assignment),
    tryValuesF c bt a var vals = some (res, aa) →
    ∀ v, (List.lookup v a).isSome → (List.lookup v aa).isSome := by
  intro vals
  induction vals with
  | nil =>
    intro a var res aa h v hv
    rw [tryValuesF] at h
    simp only [Option.some.injEq, Prod.mk.injEq] at h
    exact h.2 ▸ hv
  | cons w rest ih =>
    intro a var res aa h v hv
    rw [tryValuesF] at h
    by_cases hc : consistent c (dictInsert a var w) = true
    · rw [if_pos hc] at h
      cases hbtv : bt (dictInsert a var w) with
      | none => rw [hbtv] at h; cases h
      | some pr =>
        obtain ⟨res', aa'⟩ := pr
        rw [hbtv] at h
        have hkeys := hbt _ _ _ hbtv
        cases res' with
        | some r =>
          simp only [Option.some.injEq, Prod.mk.injEq] at h
          exact h.2 ▸ hkeys v (lookup_dictInsert_mono var w hv)
        | none =>
          exact ih aa' var res aa h v (hkeys v (lookup_dictInsert_mono var w hv))
    · rw [if_neg hc] at h
      exact ih a var res aa h v hv

theorem backtrackF_keys (c : Crossword) (d : Domains) :
    ∀ (fuel : Nat) (a : Assignment) (res : Option Assignment) (aa : Assignment),
    backtrackF c d fuel a = some (res, aa) →
    ∀ v, (List.lookup v a).isSome → (List.lookup v aa).isSome := by
  intro fuel
  induction fuel with
  | zero => intro a res aa h; cases h
  | succ n ih =>
    intro a res aa h v hv
    rw [backtrackF] at h
    by_cases hcpl : assignment_complete c a = true
    · rw [if_pos hcpl] at h
      simp only [Option.some.injEq, Prod.mk.injEq] at h
      exact h.2 ▸ hv
    · rw [if_neg hcpl] at h
      cases hsel : select_unassigned_variable c d a with
      | none =>
        rw [hsel] at h
        simp only [Option.some.injEq, Prod.mk.injEq] at h
        exact h.2 ▸ hv
      | some var =>
        rw [hsel] at h
        exact tryValuesF_keys c (backtrackF c d n) (ih) _ a var res aa h v hv

theorem tryValuesF_some (c : Crossword) (n : Nat)
    (bt : Assignment → Option (Option Assignment × Assignment))
    (hbt_some : ∀ a, unA a c.vars < n → (bt a).isSome)
    (hbt_keys : ∀ a res aa, bt a = some (res, aa) →
      ∀ v, (List.lookup v a).isSome → (List.lookup v aa).isSome)
    (var : Var) :
    ∀ (vals : List Word) (a : Assignment),
    (∀ w : Word, unA (dictInsert a var w) c.vars < n) →
    (tryValuesF c bt a var vals).isSome := by
  intro vals
  induction vals with
  | nil => intro a _; rw [tryValuesF]; rfl
  | cons w rest ih =>
    intro a hJ
    rw [tryValuesF]
    by_cases hc : consistent c (dictInsert a var w) = true
    · rw [if_pos hc]
      cases hbtv : bt (dictInsert a var w) with
      | none =>
        have := hbt_some (dictInsert a var w) (hJ w)
        rw [hbtv] at this
        cases this
      | some pr =>
        obtain ⟨res', aa'⟩ := pr
        cases res' with
        | some r => rfl
        | none =>
          apply ih aa'
          intro w'
          have hkeys := hbt_keys _ _ _ hbtv
          calc unA (dictInsert aa' var w') c.vars
              ≤ unA aa' c.vars := unA_dictInsert_le aa' var w' c.vars
            _ ≤ unA (dictInsert a var w) c.vars := unA_mono hkeys c.vars
            _ < n := hJ w
    · rw [if_neg hc]
      exact ih a hJ

theorem backtrackF_some (c : Crossword) (d : Domains) :
    ∀ (fuel : Nat) (a : Assignment), unA a c.vars < fuel →
    (backtrackF c d fuel a).isSome := by
  intro fuel
  induction fuel with
  | zero => intro a h; cases h
  | succ n ih =>
    intro a ha
    rw [backtrackF]
    by_cases hcpl : assignment_complete c a = true
    · rw [if_pos hcpl]; rfl
    · rw [if_neg hcpl]
      have hex : ∃ v ∈ c.vars, List.lookup v a = none := by
        by_contra hno
        push_neg at hno
        apply hcpl
        rw [assignment_complete, List.all_eq_true]
        intro v hv
        cases hl : List.lookup v a with
        | none => exact absurd hl (hno v hv)
        | some _ => rfl
      obtain ⟨r, hsel, hrvars, hrun, -, -⟩ := select_spec c d a hex
      rw [hsel]
      apply tryValuesF_some c n (backtrackF c d n) ih (backtrackF_keys c d n) r _ a
      intro w
      have h1 := unA_dictInsert_lt a r w c.vars hrvars hrun
      have h2 : unA a c.vars ≤ n := Nat.lt_succ_iff.1 ha
      omega

/-! ### Claim theorems, part 4 -/

/-- Claim C8: the backtracking recursion terminates on every finite
structural model, domain map, and starting assignment: each accepted
step assigns a previously unassigned slot, so the number of unassigned
slots strictly decreases along the recursion, and slot-count-plus-one
fuel always suffices (no run ever exhausts it), each level iterating
over a finite candidate list. -/
theorem claim_C8_backtrack_terminates (c : Crossword) (d : Domains) (a : Assignment) :
    (backtrackF c d (c.vars.length + 1) a).isSome :=
  backtrackF_some c d (c.vars.length + 1) a
    (Nat.lt_succ_of_le (unA_le_length a c.vars))

/-! ### Well-formedness accessors and letter-comparison lemmas -/

theorem wfCheck_spec {c : Crossword} (hwf : wfCheck c = true) :
    ∀ x ∈ c.vars, (∀ y ∈ c.neighbors x, y ∈ c.vars) ∧ c.overlaps x x = none ∧
    ∀ y ∈ c.vars, (y ∈ c.neighbors x ↔ (c.overlaps x y).isSome = true) ∧
      (∀ i j, c.overlaps x y = some (i, j) →
        c.overlaps y x = some (j, i) ∧ i < c.varLen x ∧ j < c.varLen y) := by
  rw [wfCheck, List.all_eq_true] at hwf
  intro x hx
  have h := hwf x hx
  simp only [Bool.and_eq_true, List.all_eq_true] at h
  obtain ⟨⟨hnb, hirr⟩, h2⟩ := h
  refine ⟨fun y hy => List.mem_of_elem_eq_true (by simpa using hnb y hy),
    by simpa using hirr, ?_⟩
  intro y hy
  have h3 := h2 y hy
  simp only [Bool.and_eq_true] at h3
  obtain ⟨hmem, hmatch⟩ := h3
  have hmem' : (c.neighbors x).contains y = (c.overlaps x y).isSome := beq_iff_eq.1 hmem
  constructor
  · constructor
    · intro hyn
      rw [← hmem']
      exact List.elem_eq_true_of_mem hyn
    · intro hov
      rw [← hmem'] at hov
      exact List.mem_of_elem_eq_true hov
  · intro i j hov
    rw [hov] at hmatch
    simp only [Bool.and_eq_true, decide_eq_true_eq] at hmatch
    exact ⟨beq_iff_eq.1 hmatch.1.1, hmatch.1.2, hmatch.2⟩

theorem slice1_eq_getElem? (w : Word) (i : Nat) : slice1 w i = (w[i]?).toList := by
  rw [slice1]
  induction w generalizing i with
  | nil => cases i <;> rfl
  | cons ch rest ih =>
    cases i with
    | zero => simp [Option.toList]
    | succ n => rw [List.drop_succ_cons, List.getElem?_cons_succ]; exact ih n

theorem optToList_inj {o1 o2 : Option Char} (h : o1.toList = o2.toList) : o1 = o2 := by
  cases o1 <;> cases o2 <;> (simp [Option.toList] at h ⊢; try exact h)

theorem letterMatch_iff_getElem? (w v : Word) (i j : Nat) :
    letterMatch w v i j = true ↔ w[i]? = v[j]? := by
  rw [letterMatch, beq_iff_eq, slice1_eq_getElem?, slice1_eq_getElem?]
  exact ⟨optToList_inj, fun h => h ▸ rfl⟩

/-! ### The consistency check on returned assignments -/

theorem lookup_mem : ∀ (a : Assignment) (v : Var) (w : Word),
    List.lookup v a = some w → (v, w) ∈ a := by
  intro a
  induction a with
  | nil => intro v w h; cases h
  | cons p rest ih =>
    intro v w h
    obtain ⟨k, b⟩ := p
    rw [lookup_cons] at h
    by_cases hvk : v = k
    · rw [if_pos hvk] at h
      cases h
      exact hvk ▸ List.mem_cons_self _ _
    · rw [if_neg hvk] at h
      exact List.mem_cons_of_mem _ (ih v w h)

theorem consistentAux_entries (c : Crossword) (a : Assignment) :
    ∀ (l : List (Var × Word)) (seen : List Var), consistentAux c a l seen = true →
    ∀ p ∈ l, p.2.length = c.varLen p.1 ∧
      (∀ nb ∈ c.neighbors p.1, ∀ i j, c.overlaps p.1 nb = some (i, j) →
        ∀ wn, List.lookup nb a = some wn → letterMatch p.2 wn i j = true) := by
  intro l
  induction l with
  | nil => intro seen _ p hp; cases hp
  | cons q rest ih =>
    intro seen h p hp
    obtain ⟨v, w⟩ := q
    rw [consistentAux] at h
    by_cases hseen : v ∈ seen
    · rw [if_pos hseen] at h; cases h
    · rw [if_neg hseen] at h
      by_cases hlen : (w.length == c.varLen v) = true
      · rw [hlen] at h
        simp only [Bool.not_true, if_false] at h
        by_cases hall : (c.neighbors v).all (fun nb =>
            match c.overlaps v nb with
            | some (i, j) =>
              match List.lookup nb a with
              | some wn => letterMatch w wn i j
              | none => true
            | none => true) = true
        · rw [if_pos hall] at h
          rcases List.mem_cons.1 hp with heq | hp'
          · subst heq
            refine ⟨beq_iff_eq.1 hlen, ?_⟩
            intro nb hnb i j hov wn hwn
            rw [List.all_eq_true] at hall
            have hb := hall nb hnb
            rw [hov, hwn] at hb
            exact hb
          · exact ih (v :: seen) h p hp'
        · rw [if_neg hall] at h; cases h
      · rw [Bool.eq_false_iff.2 hlen] at h
        simp only [Bool.not_false, if_true] at h
        cases h

theorem tryValuesF_consistent (c : Crossword)
    (bt : Assignment → Option (Option Assignment × Assignment))
    (hbt : ∀ a, consistent c a = true → ∀ res aa, bt a = some (res, aa) →
      consistent c aa = true ∧
        (∀ r, res = some r → r = aa ∧ assignment_complete c r = true)) :
    ∀ (vals : List Word) (a : Assignment) (var : Var), consistent c a = true →
    ∀ res aa, tryValuesF c bt a var vals = some (res, aa) →
    consistent c aa = true ∧
      (∀ r, res = some r → r = aa ∧ assignment_complete c r = true) := by
  intro vals
  induction vals with
  | nil =>
    intro a var hcons res aa h
    rw [tryValuesF] at h
    simp only [Option.some.injEq, Prod.mk.injEq] at h
    refine ⟨h.2 ▸ hcons, fun r hr => ?_⟩
    rw [← h.1] at hr
    cases hr
  | cons w rest ih =>
    intro a var hcons res aa h
    rw [tryValuesF] at h
    by_cases hc : consistent c (dictInsert a var w) = true
    · rw [if_pos hc] at h
      cases hbtv : bt (dictInsert a var w) with
      | none => rw [hbtv] at h; cases h
      | some pr =>
        obtain ⟨res', aa'⟩ := pr
        rw [hbtv] at h
        have hrec := hbt _ hc _ _ hbtv
        cases res' with
        | some r =>
          simp only [Option.some.injEq, Prod.mk.injEq] at h
          obtain ⟨hres, haa⟩ := h
          refine ⟨haa ▸ hrec.1, fun r' hr' => ?_⟩
          rw [← hres] at hr'
          cases hr'
          obtain ⟨he, hcpl⟩ := hrec.2 r rfl
          exact ⟨haa ▸ he, hcpl⟩
        | none =>
          exact ih aa' var hrec.1 res aa h
    · rw [if_neg hc] at h
      exact ih a var hcons res aa h

theorem backtrackF_consistent (c : Crossword) (d : Domains) :
    ∀ (fuel : Nat) (a : Assignment), consistent c a = true →
    ∀ res aa, backtrackF c d fuel a = some (res, aa) →
    consistent c aa = true ∧
      (∀ r, res = some r → r = aa ∧ assignment_complete c r = true) := by
  intro fuel
  induction fuel with
  | zero => intro a _ res aa h; cases h
  | succ n ih =>
    intro a hcons res aa h
    rw [backtrackF] at h
    by_cases hcpl : assignment_complete c a = true
    · rw [if_pos hcpl] at h
      simp only [Option.some.injEq, Prod.mk.injEq] at h
      refine ⟨h.2 ▸ hcons, fun r hr => ?_⟩
      rw [← h.1] at hr
      cases hr
      exact ⟨h.2, hcpl⟩
    · rw [if_neg hcpl] at h
      cases hsel : select_unassigned_variable c d a with
      | none =>
        rw [hsel] at h
        simp only [Option.some.injEq, Prod.mk.injEq] at h
        refine ⟨h.2 ▸ hcons, fun r hr => ?_⟩
        rw [← h.1] at hr
        cases hr
      | some var =>
        rw [hsel] at h
        exact tryValuesF_consistent c (backtrackF c d n) ih _ a var hcons res aa h

/-- Every entry of an assignment accepted by `consistent` has the
slot's length and matches each assigned neighbor at the overlap. -/
theorem consistent_entry {c : Crossword} {a : Assignment}
    (hcons : consistent c a = true) {v : Var} {w : Word}
    (hlk : List.lookup v a = some w) :
    w.length = c.varLen v ∧
      (∀ nb ∈ c.neighbors v, ∀ i j, c.overlaps v nb = some (i, j) →
        ∀ wn, List.lookup nb a = some wn → letterMatch w wn i j = true) := by
  rw [consistent] at hcons
  exact consistentAux_entries c a a [] hcons (v, w) (lookup_mem a v w hlk)

/-! ### Claim theorems, part 5 -/

/-- Claim C3: on a well-formed structural model, every complete
assignment returned by `solve` (through `backtrack` from the empty
assignment) is complete and satisfies the length invariant and, for
every crossing pair, character agreement at the overlap offsets. -/
theorem claim_C3_solve_invariants (c : Crossword) (f : Assignment)
    (hwf : wfCheck c = true) (hsol : solve c = some f) :
    assignment_complete c f = true ∧
    (∀ v ∈ c.vars, ∀ w, List.lookup v f = some w → w.length = c.varLen v) ∧
    (∀ A ∈ c.vars, ∀ B ∈ c.vars, ∀ i j, c.overlaps A B = some (i, j) →
      ∀ wA wB, List.lookup A f = some wA → List.lookup B f = some wB →
        i < wA.length ∧ j < wB.length ∧ wA[i]? = wB[j]?) := by
  set d2 := (ac3 c (enforce_node_consistency c (initDomains c)) none).1 with hd2
  rw [solve_eq, backtrack_eq, ← hd2] at hsol
  cases hrun : backtrackF c d2 (c.vars.length + 1) [] with
  | none =>
    have := backtrackF_some c d2 (c.vars.length + 1) ([] : Assignment)
      (Nat.lt_succ_of_le (unA_le_length [] c.vars))
    rw [hrun] at this
    cases this
  | some pr =>
    obtain ⟨res, aa⟩ := pr
    rw [hrun, Option.getD_some] at hsol
    obtain ⟨hconsaa, hres⟩ :=
      backtrackF_consistent c d2 (c.vars.length + 1) [] rfl res aa hrun
    obtain ⟨hfaa, hcpl⟩ := hres f hsol
    subst hfaa
    have hcons : consistent c f = true := hconsaa
    refine ⟨hcpl, ?_, ?_⟩
    · intro v hv w hw
      exact (consistent_entry hcons hw).1
    · intro A hA B hB i j hov wA wB hwA hwB
      obtain ⟨-, -, hAB⟩ := wfCheck_spec hwf A hA
      obtain ⟨hiff, hrange⟩ := hAB B hB
      have hBnb : B ∈ c.neighbors A := hiff.2 (by rw [hov]; rfl)
      have hlenA : wA.length = c.varLen A := (consistent_entry hcons hwA).1
      have hlenB : wB.length = c.varLen B := (consistent_entry hcons hwB).1
      obtain ⟨-, hiA, hjB⟩ := hrange i j hov
      have hm := (consistent_entry hcons hwA).2 B hBnb i j hov wB hwB
      exact ⟨hlenA ▸ hiA, hlenB ▸ hjB, (letterMatch_iff_getElem? wA wB i j).1 hm⟩

/-- Witness for claim C3: `solve` on the two-slot model `cwB` returns
the complete assignment `solB`. -/
theorem claim_C3_solve_invariants_witness :
    assignment_complete cwB solB = true :=
  (claim_C3_solve_invariants cwB solB (by decide) (by decide)).1

/-! ### Soundness of consistency pruning -/

theorem solSat_length {c : Crossword} {f : Var → Word} (h : SolSat c f) :
    ∀ v ∈ c.vars, (f v).length = c.varLen v := by
  intro v hv
  rw [SolSat, solSatB, List.all_eq_true] at h
  have h2 := h v hv
  simp only [Bool.and_eq_true] at h2
  exact beq_iff_eq.1 h2.1

theorem solSat_overlap {c : Crossword} {f : Var → Word} (h : SolSat c f) :
    ∀ x ∈ c.vars, ∀ y ∈ c.vars, ∀ i j,
    c.overlaps x y = some (i, j) → (f x)[i]? = (f y)[j]? := by
  intro x hx y hy i j hov
  rw [SolSat, solSatB, List.all_eq_true] at h
  have h2 := h x hx
  simp only [Bool.and_eq_true, List.all_eq_true] at h2
  have h3 := h2.2 y hy
  rw [hov] at h3
  exact beq_iff_eq.1 h3

theorem revise_keeps_solution {c : Crossword} {f : Var → Word} {d : Domains}
    (hsol : SolSat c f) {x y : Var} (hx : x ∈ c.vars) (hy : y ∈ c.vars)
    (hmem : ∀ v ∈ c.vars, f v ∈ d v) :
    ∀ v ∈ c.vars, f v ∈ (revise c d x y).1 v := by
  intro v hv
  cases hov : c.overlaps x y with
  | none => simp only [revise, hov]; exact hmem v hv
  | some p =>
    obtain ⟨i, j⟩ := p
    by_cases hvx : v = x
    · subst hvx
      have hkeep : supp (d y) i j (f v) = true := by
        apply List.any_eq_true.2
        refine ⟨f y, hmem y hy, ?_⟩
        rw [letterMatch_iff_getElem?]
        exact solSat_overlap hsol v hv y hy i j hov
      simp only [revise, hov, updateD, if_pos rfl]
      exact List.mem_filter.2 ⟨hmem v hv, hkeep⟩
    · simp only [revise, hov, updateD, if_neg hvx]
      exact hmem v hv

theorem pairsOf_mem (c : Crossword) :
    ∀ (l : List Var) (p : Var × Var), p ∈ pairsOf c l →
    p.1 ∈ l ∧ p.2 ∈ c.neighbors p.1 := by
  intro l
  induction l with
  | nil => intro p hp; cases hp
  | cons v rest ih =>
    intro p hp
    rw [pairsOf, List.mem_append] at hp
    rcases hp with hp | hp
    · obtain ⟨n, hn, he⟩ := List.mem_map.1 hp
      rw [← he]
      exact ⟨List.mem_cons_self v rest, hn⟩
    · obtain ⟨h1, h2⟩ := ih p hp
      exact ⟨List.mem_cons_of_mem v h1, h2⟩

theorem pairsOf_mem_of (c : Crossword) :
    ∀ (l : List Var) (x y : Var), x ∈ l → y ∈ c.neighbors x →
    (x, y) ∈ pairsOf c l := by
  intro l
  induction l with
  | nil => intro x y hx; cases hx
  | cons v rest ih =>
    intro x y hx hy
    rw [pairsOf, List.mem_append]
    rcases List.mem_cons.1 hx with heq | hx'
    · subst heq
      exact Or.inl (List.mem_map.2 ⟨y, hy, rfl⟩)
    · exact Or.inr (ih x y hx' hy)

theorem ac3F_keeps_solution (c : Crossword) (f : Var → Word)
    (hwf : wfCheck c = true) (hsol : SolSat c f) :
    ∀ (fuel : Nat) (d : Domains) (arcs : List (Var × Var)),
    (∀ p ∈ arcs, p.1 ∈ c.vars ∧ p.2 ∈ c.vars) →
    (∀ v ∈ c.vars, f v ∈ d v) →
    ∀ d2 b, ac3F c fuel d arcs = some (d2, b) →
    ∀ v ∈ c.vars, f v ∈ d2 v := by
  intro fuel
  induction fuel with
  | zero => intro d arcs _ _ d2 b h; cases h
  | succ n ih =>
    intro d arcs harcs hmem d2 b h
    rw [ac3F] at h
    cases hlast : arcs.getLast? with
    | none =>
      rw [hlast] at h
      simp only [Option.some.injEq, Prod.mk.injEq] at h
      exact h.1 ▸ hmem
    | some xy =>
      obtain ⟨x, y⟩ := xy
      rw [hlast] at h
      simp only at h
      have hxy : x ∈ c.vars ∧ y ∈ c.vars := by
        have := harcs (x, y) (List.mem_of_mem_getLast? hlast)
        exact this
      have hmem' := revise_keeps_solution hsol hxy.1 hxy.2 hmem
      by_cases hch : (revise c d x y).2
      · rw [if_pos hch] at h
        by_cases hemp : ((revise c d x y).1 x).length = 0
        · rw [if_pos hemp] at h
          simp only [Option.some.injEq, Prod.mk.injEq] at h
          exact h.1 ▸ hmem'
        · rw [if_neg hemp] at h
          apply ih _ _ _ hmem' d2 b h
          intro p hp
          rw [List.mem_append] at hp
          rcases hp with hp | hp
          · exact harcs p (List.mem_of_mem_dropLast hp)
          · obtain ⟨z, hz, he⟩ := List.mem_map.1 hp
            rw [← he]
            have hznb : z ∈ c.neighbors x := (List.mem_filter.1 hz).1
            exact ⟨(wfCheck_spec hwf x hxy.1).1 z hznb, hxy.1⟩
      · rw [if_neg hch] at h
        apply ih _ _ _ hmem d2 b h
        intro p hp
        exact harcs p (List.mem_of_mem_dropLast hp)

theorem enforce_sublist (c : Crossword) (d : Domains) (v : Var) :
    (enforce_node_consistency c d v).Sublist (d v) := by
  rw [enforce_node_consistency]
  by_cases hv : v ∈ c.vars
  · rw [if_pos hv]; exact List.filter_sublist _
  · rw [if_neg hv]

theorem enforce_keeps_solution {c : Crossword} {f : Var → Word} (hsol : SolSat c f)
    (d : Domains) (hmem : ∀ v ∈ c.vars, f v ∈ d v) :
    ∀ v ∈ c.vars, f v ∈ enforce_node_consistency c d v := by
  intro v hv
  rw [enforce_node_consistency, if_pos hv]
  exact List.mem_filter.2 ⟨hmem v hv, beq_iff_eq.2 (solSat_length hsol v hv)⟩

/-- Claim C4: after `enforce_node_consistency` followed by `ac3` over
all arcs, every slot's domain is a sublist (hence subset, hence no
larger) of its original domain, and any word that is part of a
globally satisfying complete assignment drawn from the original
domains is never pruned. -/
theorem claim_C4_pruning_monotone_and_sound (c : Crossword) (d : Domains) (f : Var → Word)
    (hwf : wfCheck c = true) (hsol : SolSat c f) (hmem : ∀ v ∈ c.vars, f v ∈ d v) :
    (∀ v, ((ac3 c (enforce_node_consistency c d) none).1 v).Sublist (d v)) ∧
    (∀ v, ∀ w ∈ (ac3 c (enforce_node_consistency c d) none).1 v, w ∈ d v) ∧
    (∀ v, ((ac3 c (enforce_node_consistency c d) none).1 v).length ≤ (d v).length) ∧
    (∀ v ∈ c.vars, f v ∈ (ac3 c (enforce_node_consistency c d) none).1 v) := by
  have hsub : ∀ v, ((ac3 c (enforce_node_consistency c d) none).1 v).Sublist (d v) :=
    fun v => (ac3_sublist c (enforce_node_consistency c d) none v).trans (enforce_sublist c d v)
  refine ⟨hsub, fun v w hw => (hsub v).subset hw, fun v => (hsub v).length_le, ?_⟩
  have hed := enforce_keeps_solution hsol d hmem
  rw [ac3_eq]
  simp only [Option.getD_none]
  cases hrun : ac3F c
      ((1 + degSum c) * totalSize c (enforce_node_consistency c d) + (initialArcs c).length + 1)
      (enforce_node_consistency c d) (initialArcs c) with
  | none =>
    simp only [Option.getD_none]
    exact hed
  | some val =>
    simp only [Option.getD_some]
    apply ac3F_keeps_solution c f hwf hsol _ (enforce_node_consistency c d)
      (initialArcs c) ?_ hed val.1 val.2 (by rw [hrun])
    intro p hp
    obtain ⟨h1, h2⟩ := pairsOf_mem c c.vars p hp
    exact ⟨h1, (wfCheck_spec hwf p.1 h1).1 p.2 h2⟩

/-- Witness for claim C4: on `cw1`, the solution value of slot 0
survives node consistency plus AC-3. -/
theorem claim_C4_pruning_monotone_and_sound_witness :
    fSol1 0 ∈ (ac3 cw1 (enforce_node_consistency cw1 dw1) none).1 0 :=
  (claim_C4_pruning_monotone_and_sound cw1 dw1 fSol1 (by decide)
    (show solSatB cw1 fSol1 = true by decide) (by decide)).2.2.2 0 (by decide)

/-! ### Arc stability and the AC-3 fixed point -/

theorem arcStable_of_none {c : Crossword} {d : Domains} {x y : Var}
    (hov : c.overlaps x y = none) : arcStable c d x y := by
  rw [arcStable]
  simp [revise, hov]

theorem arcStable_iff {c : Crossword} {d : Domains} {x y : Var} {i j : Nat}
    (hov : c.overlaps x y = some (i, j)) :
    arcStable c d x y ↔ ∀ w ∈ d x, supp (d y) i j w = true := by
  rw [arcStable]
  simp only [revise, hov]
  constructor
  · intro h w hw
    by_contra hn
    have hfalse : supp (d y) i j w = false := Bool.eq_false_iff.2 hn
    have hany : (d x).any (fun w => ! supp (d y) i j w) = true :=
      List.any_eq_true.2 ⟨w, hw, by rw [hfalse]; rfl⟩
    rw [hany] at h
    cases h
  · intro h
    apply Bool.eq_false_iff.2
    intro hany
    obtain ⟨w, hw, hbw⟩ := List.any_eq_true.1 hany
    rw [h w hw] at hbw
    cases hbw

theorem arcStable_congr {c : Crossword} {d d2 : Domains} {u v : Var}
    (hu : d2 u = d u) (hv : d2 v = d v) (h : arcStable c d u v) : arcStable c d2 u v := by
  cases hov : c.overlaps u v with
  | none => exact arcStable_of_none hov
  | some p =>
    obtain ⟨i, j⟩ := p
    rw [arcStable_iff hov] at h ⊢
    rw [hu, hv]
    exact h

theorem revise_true_parts {c : Crossword} {d : Domains} {x y : Var}
    (hch : (revise c d x y).2 = true) :
    ∃ i j, c.overlaps x y = some (i, j) ∧
      (revise c d x y).1 x = (d x).filter (supp (d y) i j) ∧
      ((revise c d x y).1 x).length < (d x).length ∧
      (∀ v, v ≠ x → (revise c d x y).1 v = d v) := by
  cases hov : c.overlaps x y with
  | none => rw [revise, hov] at hch; cases hch
  | some p =>
    obtain ⟨i, j⟩ := p
    refine ⟨i, j, rfl, by simp [revise, hov, updateD], ?_, ?_⟩
    · have hfil : (revise c d x y).1 x = (d x).filter (supp (d y) i j) := by
        simp [revise, hov, updateD]
      rw [hfil]
      apply List.length_filter_lt_length_iff_exists.mpr
      have hany : (d x).any (fun w => ! supp (d y) i j w) = true := by
        rw [revise, hov] at hch
        exact hch
      obtain ⟨w, hw, hbw⟩ := List.any_eq_true.1 hany
      exact ⟨w, hw, by simpa using hbw⟩
    · intro v hv
      simp [revise, hov, updateD, hv]

theorem ac3F_stable (c : Crossword) (hwf : wfCheck c = true) :
    ∀ (fuel : Nat) (d : Domains) (arcs : List (Var × Var)),
    (∀ p ∈ arcs, p.1 ∈ c.vars ∧ p.2 ∈ c.neighbors p.1) →
    (∀ u ∈ c.vars, ∀ v ∈ c.neighbors u, (u, v) ∈ arcs ∨ arcStable c d u v) →
    ∀ d2, ac3F c fuel d arcs = some (d2, true) →
    ∀ u ∈ c.vars, ∀ v ∈ c.neighbors u, arcStable c d2 u v := by
  intro fuel
  induction fuel with
  | zero => intro d arcs _ _ d2 h; cases h
  | succ n ih =>
    intro d arcs harcs hinv d2 h
    rw [ac3F] at h
    cases hlast : arcs.getLast? with
    | none =>
      rw [hlast] at h
      simp only [Option.some.injEq, Prod.mk.injEq] at h
      intro u hu v hv
      rcases hinv u hu v hv with hin | hst
      · rw [List.getLast?_eq_none_iff.mp hlast] at hin
        cases hin
      · exact h.1 ▸ hst
    | some xy =>
      obtain ⟨x, y⟩ := xy
      rw [hlast] at h
      simp only at h
      have hmem := List.mem_of_mem_getLast? hlast
      obtain ⟨hxv, hynb⟩ := harcs (x, y) hmem
      have hyv : y ∈ c.vars := (wfCheck_spec hwf x hxv).1 y hynb
      have harcs_split : ∀ p ∈ arcs, p ∈ arcs.dropLast ∨ p = (x, y) := by
        intro p hp
        have he : arcs.dropLast ++ [(x, y)] = arcs := List.dropLast_append_getLast? _ hlast
        rw [← he] at hp
        rcases List.mem_append.1 hp with h1 | h1
        · exact Or.inl h1
        · simp only [List.mem_singleton] at h1
          exact Or.inr h1
      by_cases hch : (revise c d x y).2 = true
      · rw [if_pos hch] at h
        obtain ⟨i, j, hov, hfil, hlt, hother⟩ := revise_true_parts hch
        have hxy_ne : x ≠ y := by
          intro he
          rw [he, (wfCheck_spec hwf y hyv).2.1] at hov
          cases hov
        by_cases hemp : ((revise c d x y).1 x).length = 0
        · rw [if_pos hemp] at h
          simp at h
        · rw [if_neg hemp] at h
          apply ih (revise c d x y).1 _ ?harcsNew ?hinvNew d2 h
          case harcsNew =>
            intro p hp
            rcases List.mem_append.1 hp with hp | hp
            · exact harcs p (List.mem_of_mem_dropLast hp)
            · obtain ⟨z, hz, he⟩ := List.mem_map.1 hp
              rw [← he]
              have hznb : z ∈ c.neighbors x := (List.mem_filter.1 hz).1
              have hzv : z ∈ c.vars := (wfCheck_spec hwf x hxv).1 z hznb
              refine ⟨hzv, ?_⟩
              have hovxz : (c.overlaps x z).isSome = true :=
                ((wfCheck_spec hwf x hxv).2.2 z hzv).1.1 hznb
              obtain ⟨iz, jz, hozeq⟩ : ∃ a b, c.overlaps x z = some (a, b) := by
                cases ho : c.overlaps x z with
                | none => rw [ho] at hovxz; cases hovxz
                | some q => exact ⟨q.1, q.2, rfl⟩
              have hsym := (((wfCheck_spec hwf x hxv).2.2 z hzv).2 iz jz hozeq).1
              exact ((wfCheck_spec hwf z hzv).2.2 x hxv).1.2 (by rw [hsym]; rfl)
          case hinvNew =>
            intro u hu v hv
            rcases hinv u hu v hv with hin | hst
            · rcases harcs_split (u, v) hin with h1 | h1
              · exact Or.inl (List.mem_append.2 (Or.inl h1))
              · right
                have hux : u = x := congrArg Prod.fst h1
                have hvy : v = y := congrArg Prod.snd h1
                subst hux hvy
                rw [arcStable_iff hov]
                intro w hw
                rw [hfil] at hw
                rw [hother v (Ne.symm hxy_ne)]
                exact (List.mem_filter.1 hw).2
            · by_cases hux : u = x
              · subst hux
                right
                have hvx : v ≠ u := by
                  intro he
                  have his := ((wfCheck_spec hwf u hu).2.2 v ((wfCheck_spec hwf u hu).1 v hv)).1.1 hv
                  rw [he, (wfCheck_spec hwf u hu).2.1] at his
                  cases his
                cases hov2 : c.overlaps u v with
                | none => exact arcStable_of_none hov2
                | some q =>
                  obtain ⟨i2, j2⟩ := q
                  rw [arcStable_iff hov2]
                  intro w hw
                  rw [hother v hvx]
                  rw [hfil] at hw
                  exact (arcStable_iff hov2).1 hst w (List.mem_filter.1 hw).1
              · by_cases hvx : v = x
                · subst hvx
                  by_cases huy : u = y
                  · subst huy
                    right
                    have hovyx : c.overlaps u v = some (j, i) :=
                      (((wfCheck_spec hwf v hxv).2.2 u hyv).2 i j hov).1
                    rw [arcStable_iff hovyx]
                    intro w hw
                    rw [hother u hux] at hw
                    have hsupp := (arcStable_iff hovyx).1 hst w hw
                    obtain ⟨v0, hv0, hlm⟩ := List.any_eq_true.1 hsupp
                    apply List.any_eq_true.2
                    refine ⟨v0, ?_, hlm⟩
                    rw [hfil]
                    apply List.mem_filter.2
                    refine ⟨hv0, ?_⟩
                    apply List.any_eq_true.2
                    refine ⟨w, hw, ?_⟩
                    rw [letterMatch_symm w v0 j i]
                    exact hlm
                  · left
                    apply List.mem_append.2
                    right
                    apply List.mem_map.2
                    refine ⟨u, ?_, rfl⟩
                    apply List.mem_filter.2
                    constructor
                    · have hovux : (c.overlaps u v).isSome = true :=
                        ((wfCheck_spec hwf u hu).2.2 v hxv).1.1 hv
                      obtain ⟨iu, ju, houeq⟩ : ∃ a b, c.overlaps u v = some (a, b) := by
                        cases ho : c.overlaps u v with
                        | none => rw [ho] at hovux; cases hovux
                        | some q => exact ⟨q.1, q.2, rfl⟩
                      have hsym := (((wfCheck_spec hwf u hu).2.2 v hxv).2 iu ju houeq).1
                      exact ((wfCheck_spec hwf v hxv).2.2 u hu).1.2 (by rw [hsym]; rfl)
                    · simpa using huy
                · right
                  exact arcStable_congr (hother u hux) (hother v hvx) hst
      · rw [if_neg hch] at h
        apply ih d arcs.dropLast (fun p hp => harcs p (List.mem_of_mem_dropLast hp)) ?_ d2 h
        intro u hu v hv
        rcases hinv u hu v hv with hin | hst
        · rcases harcs_split (u, v) hin with h1 | h1
          · exact Or.inl h1
          · right
            have hux : u = x := congrArg Prod.fst h1
            have hvy : v = y := congrArg Prod.snd h1
            subst hux hvy
            exact Bool.eq_false_iff.2 hch
        · exact Or.inr hst

theorem ac3F_run_stable (c : Crossword) :
    ∀ (fuel : Nat) (arcs : List (Var × Var)) (d : Domains),
    arcs.length < fuel →
    (∀ p ∈ arcs, arcStable c d p.1 p.2) →
    ac3F c fuel d arcs = some (d, true) := by
  intro fuel
  induction fuel with
  | zero => intro arcs d h; omega
  | succ n ih =>
    intro arcs d hlen hstable
    rw [ac3F]
    cases hlast : arcs.getLast? with
    | none => rfl
    | some xy =>
      obtain ⟨x, y⟩ := xy
      simp only
      have hne : arcs ≠ [] := by
        intro he
        rw [he] at hlast
        cases hlast
      have hst := hstable (x, y) (List.mem_of_mem_getLast? hlast)
      rw [if_neg (by rw [hst]; simp)]
      apply ih
      · have := List.length_pos.2 hne
        rw [List.length_dropLast]
        omega
      · intro p hp
        exact hstable p (List.mem_of_mem_dropLast hp)

theorem totalSizeL_le {d d2 : Domains} (h : ∀ v, (d2 v).length ≤ (d v).length) :
    ∀ l, totalSizeL d2 l ≤ totalSizeL d l := by
  intro l
  induction l with
  | nil => exact le_refl 0
  | cons v r ih =>
    simp only [totalSizeL]
    exact Nat.add_le_add (h v) ih

theorem totalSizeL_lt {d d2 : Domains} (h : ∀ v, (d2 v).length ≤ (d v).length)
    {x : Var} (hlt : (d2 x).length < (d x).length) :
    ∀ l, x ∈ l → totalSizeL d2 l < totalSizeL d l := by
  intro l
  induction l with
  | nil => intro hx; cases hx
  | cons v r ih =>
    intro hx
    simp only [totalSizeL]
    rcases List.mem_cons.1 hx with heq | hx'
    · subst heq
      have := totalSizeL_le h r
      omega
    · have h1 := h v
      have := ih hx'
      omega

theorem degSumL_ge (c : Crossword) {x : Var} :
    ∀ l, x ∈ l → (c.neighbors x).length ≤ degSumL c l := by
  intro l
  induction l with
  | nil => intro hx; cases hx
  | cons v r ih =>
    intro hx
    simp only [degSumL]
    rcases List.mem_cons.1 hx with heq | hx'
    · subst heq; omega
    · have := ih hx'
      omega

theorem ac3F_isSome_of_fuel (c : Crossword) (hwf : wfCheck c = true) :
    ∀ (fuel : Nat) (d : Domains) (arcs : List (Var × Var)),
    (∀ p ∈ arcs, p.1 ∈ c.vars) →
    (1 + degSum c) * totalSize c d + arcs.length < fuel →
    (ac3F c fuel d arcs).isSome := by
  intro fuel
  induction fuel with
  | zero => intro d arcs _ h; omega
  | succ n ih =>
    intro d arcs harcs hfuel
    rw [ac3F]
    cases hlast : arcs.getLast? with
    | none => rfl
    | some xy =>
      obtain ⟨x, y⟩ := xy
      simp only
      have hne : arcs ≠ [] := by
        intro he
        rw [he] at hlast
        cases hlast
      have hlenpos := List.length_pos.2 hne
      have hdrop : arcs.dropLast.length + 1 = arcs.length := by
        rw [List.length_dropLast]
        omega
      have hxv : x ∈ c.vars := harcs (x, y) (List.mem_of_mem_getLast? hlast)
      by_cases hch : (revise c d x y).2 = true
      · rw [if_pos hch]
        by_cases hemp : ((revise c d x y).1 x).length = 0
        · rw [if_pos hemp]; rfl
        · rw [if_neg hemp]
          apply ih
          · intro p hp
            rcases List.mem_append.1 hp with hp | hp
            · exact harcs p (List.mem_of_mem_dropLast hp)
            · obtain ⟨z, hz, he⟩ := List.mem_map.1 hp
              rw [← he]
              exact (wfCheck_spec hwf x hxv).1 z (List.mem_filter.1 hz).1
          · obtain ⟨i, j, hov, hfil, hlt, hother⟩ := revise_true_parts hch
            have hle : ∀ v, (((revise c d x y).1) v).length ≤ (d v).length :=
              fun v => ((revise_fst_sublist c d x y v).length_le)
            have hS : totalSize c ((revise c d x y).1) < totalSize c d :=
              totalSizeL_lt hle hlt c.vars hxv
            have hD : (c.neighbors x).length ≤ degSum c := degSumL_ge c c.vars hxv
            have hmul : (1 + degSum c) * (totalSize c ((revise c d x y).1) + 1) ≤
                (1 + degSum c) * totalSize c d :=
              Nat.mul_le_mul_left (1 + degSum c) hS
            rw [Nat.mul_add, Nat.mul_one] at hmul
            have henq : (((c.neighbors x).filter (fun z => z ≠ y)).map
                (fun z => ((z : Var), x))).length ≤ (c.neighbors x).length := by
              rw [List.length_map]
              exact List.length_filter_le _ _
            rw [List.length_append]
            omega
      · rw [if_neg hch]
        apply ih d arcs.dropLast (fun p hp => harcs p (List.mem_of_mem_dropLast hp))
        omega

/-! ### Claim theorems, part 6 -/

/-- Claim C5: when `ac3` over all arcs completes returning true, the
resulting domains are a fixed point: running `ac3` again on them (with
no intervening mutation) removes nothing — the domains come back
unchanged — and it returns true.  The proof tracks the AC-3 invariant
that every slot-neighbor arc is either still on the worklist or
already revision-stable, including the classic argument that the arc
`(y, x)` need not be re-enqueued after revising `(x, y)`. -/
theorem claim_C5_ac3_idempotent (c : Crossword) (d d2 : Domains)
    (hwf : wfCheck c = true) (h1 : ac3 c d none = (d2, true)) :
    ac3 c d2 none = (d2, true) := by
  have harcs1 : ∀ p ∈ initialArcs c, p.1 ∈ c.vars :=
    fun p hp => (pairsOf_mem c c.vars p hp).1
  have harcsNb : ∀ p ∈ initialArcs c, p.1 ∈ c.vars ∧ p.2 ∈ c.neighbors p.1 :=
    fun p hp => pairsOf_mem c c.vars p hp
  rw [ac3_eq] at h1
  simp only [Option.getD_none] at h1
  set F := (1 + degSum c) * totalSize c d + (initialArcs c).length + 1 with hF
  have hs := ac3F_isSome_of_fuel c hwf F d (initialArcs c) harcs1 (by omega)
  have hrun1 : ac3F c F d (initialArcs c) = some (d2, true) := by
    cases hr : ac3F c F d (initialArcs c) with
    | none => rw [hr] at hs; cases hs
    | some val =>
      rw [hr, Option.getD_some] at h1
      rw [h1]
  have hinv : ∀ u ∈ c.vars, ∀ v ∈ c.neighbors u,
      (u, v) ∈ initialArcs c ∨ arcStable c d u v :=
    fun u hu v hv => Or.inl (pairsOf_mem_of c c.vars u v hu hv)
  have hstab := ac3F_stable c hwf F d (initialArcs c) harcsNb hinv d2 hrun1
  rw [ac3_eq]
  simp only [Option.getD_none]
  rw [ac3F_run_stable c _ (initialArcs c) d2 (by omega) ?_]
  · rfl
  · intro p hp
    obtain ⟨hp1, hp2⟩ := pairsOf_mem c c.vars p hp
    exact hstab p.1 hp1 p.2 hp2

/-- Witness for claim C5: on `cw1` with `dw1` the first `ac3` run
prunes (the clashing words cx and ac) and returns true; the theorem
yields that the second run is the identity. -/
theorem claim_C5_ac3_idempotent_witness :
    ac3 cw1 ((ac3 cw1 dw1 none).1) none = ((ac3 cw1 dw1 none).1, true) := by
  have h2 : (ac3 cw1 dw1 none).2 = true := by decide
  exact claim_C5_ac3_idempotent cw1 dw1 ((ac3 cw1 dw1 none).1) (by decide) (by rw [← h2])
